import Mathlib

/-!
# Verification of the pdf_to_audio ingestion and generation pipeline

Shallow embedding of the core of the `pdf_to_audio` repository
(`models.py`, with `app.py` as the earlier snapshot), together with
proofs of the specified properties: whitespace normalization and its
idempotence, the batched-OCR document extractor, the prompt builders of
the content generator, the markdown-stripping speech renderer, and the
session workflow controller.

Strings are modelled as `List Char` (Lean's `String` is a wrapper around
`List Char`, and the Python code treats strings as character sequences).
External collaborators (rasterizer, OCR engine, generation model,
synthesis engine) are parameters: a call that can raise is a function
into `Except`, mirroring Python's try/except structure in the source.
-/

namespace PdfToAudio

/-! ## Definitions -/

/-- Python's whitespace class: the characters matched by `\s` in a `str`
regex and stripped by `str.strip()` (ASCII whitespace plus the Unicode
whitespace code points). -/
def isPyWs (c : Char) : Bool :=
  c = ' ' || c = '\t' || c = '\n' || c = '\r' || c = '\x0b' || c = '\x0c' ||
  c = '\x1c' || c = '\x1d' || c = '\x1e' || c = '\x1f' || c = '\x85' || c = '\xa0' ||
  c = '\u1680' || ('\u2000' ≤ c && c ≤ '\u200a') || c = '\u2028' || c = '\u2029' ||
  c = '\u202f' || c = '\u205f' || c = '\u3000'

/-- The character class `[ \t]` of the second substitution in `clean_text`. -/
def isSpTab (c : Char) : Bool :=
  c = ' ' || c = '\t'

/-- Effect of `re.sub(r'(\n\s*)+\n', '\n', _)` on one maximal whitespace
run: the pattern can only match inside a whitespace run, and (leftmost,
greedy) it matches from the run's first newline through its last newline
provided the run holds at least two newlines, replacing the match by a
single newline; a run with fewer than two newlines has no match. -/
def collapseNlRun (run : List Char) : List Char :=
  if 2 ≤ run.count '\n' then
    run.takeWhile (fun c => c ≠ '\n') ++
      '\n' :: (run.reverse.takeWhile (fun c => c ≠ '\n')).reverse
  else run

/-- Left-to-right scanner implementing `re.sub(r'(\n\s*)+\n', '\n', text)`
(`models.py` line 98): every maximal whitespace run is rewritten by
`collapseNlRun` and every other character is copied. `pending` is the
whitespace run read so far and not yet emitted. -/
def nlSubGo (pending : List Char) : List Char → List Char
  | [] => collapseNlRun pending
  | c :: rest =>
    if isPyWs c then nlSubGo (pending ++ [c]) rest
    else collapseNlRun pending ++ c :: nlSubGo [] rest

/-- `re.sub(r'(\n\s*)+\n', '\n', text)` — first step of `clean_text`. -/
def nlSub (l : List Char) : List Char := nlSubGo [] l

/-- Left-to-right scanner implementing `re.sub(r'[ \t]+', ' ', text)`
(`models.py` line 99): each maximal run of spaces and tabs becomes one
space. `inRun` records whether the previous character was in such a run
(in which case the current space/tab belongs to an already replaced
match and is dropped). -/
def spSubGo (inRun : Bool) : List Char → List Char
  | [] => []
  | c :: rest =>
    if isSpTab c then
      if inRun then spSubGo true rest else ' ' :: spSubGo true rest
    else c :: spSubGo false rest

/-- `re.sub(r'[ \t]+', ' ', text)` — second step of `clean_text`. -/
def spSub (l : List Char) : List Char := spSubGo false l

/-- Python `str.strip()`: remove leading and trailing whitespace. -/
def pyStrip (l : List Char) : List Char :=
  ((l.dropWhile isPyWs).reverse.dropWhile isPyWs).reverse

/-- `models.py` `clean_text` (lines 92–100): collapse whitespace blocks
holding two or more newlines to a single newline, collapse space/tab
runs to a single space, then strip. -/
def clean_text (l : List Char) : List Char :=
  pyStrip (spSub (nlSub l))

/-- `clean_text` lifted to `String`. -/
def cleanText (s : String) : String :=
  ⟨clean_text s.data⟩

/-- After any newline, the adjacent whitespace stretch holds no further
newline (every maximal whitespace run has at most one newline). -/
def nlOk : List Char → Bool
  | [] => true
  | c :: rest =>
    (if c = '\n' then !(decide ('\n' ∈ rest.takeWhile isPyWs)) else true) && nlOk rest

/-- No tab, and no two adjacent space/tab characters. -/
def spOk : List Char → Bool
  | [] => true
  | c :: rest =>
    (!(c = '\t') &&
      (match rest.head? with
       | none => true
       | some d => !(isSpTab c && isSpTab d))) && spOk rest

/-- All characters of a list are whitespace. -/
def AllWs (l : List Char) : Prop := ∀ c ∈ l, isPyWs c = true

/-- Python `str.strip()` on `String`. -/
def pyStripStr (s : String) : String := ⟨pyStrip s.data⟩

/-- First loop of `extract_text_from_pdf` (lines 62–69): accumulate
`text + "\n"` for each page whose stripped embedded text is non-empty,
and collect the 1-based numbers of the remaining pages, in page order.
`n` is the 1-based number of the first page of the list. -/
def scanPages (n : Nat) : List String → String × List Nat
  | [] => ("", [])
  | p :: rest =>
    let r := scanPages (n + 1) rest
    let s := pyStripStr p
    if s = "" then (r.1, n :: r.2) else (s ++ "\n" ++ r.1, r.2)

/-- OCR loop of `extract_text_from_pdf` (lines 79–81), inside the `try`
of lines 74–83: for each queued page, if the page received an image,
append the recognized text plus a newline; a raising recognition call
aborts the loop and the accumulated text so far is kept (the exception
is caught on line 82). -/
def ocrLoop (recognize : String → Except Unit String)
    (pmap : List (Nat × String)) : List Nat → String → String
  | [], acc => acc
  | p :: rest, acc =>
    match pmap.lookup p with
    | none => ocrLoop recognize pmap rest acc
    | some img =>
      match recognize img with
      | .error _ => acc
      | .ok t => ocrLoop recognize pmap rest (acc ++ t ++ "\n")

/-- Result of document extraction: the returned text and the
`(first_page, last_page)` arguments of the `convert_from_path`
invocations, in call order. -/
structure ExtractResult where
  text : String
  rasterCalls : List (Nat × Nat)
  deriving DecidableEq

/-- `models.py` `extract_text_from_pdf` (lines 53–90): scan pages in
order taking embedded text where present; then, if any page lacked
text, call the rasterizer once on the inclusive range from the smallest
to the largest such page number, build the page-to-image map by zipping
that range with the returned images (`zip` truncates at the shorter),
and run recognition for each queued page that has an image, appending
the recognized text to the text gathered so far; finally `clean_text`
the accumulation. A raising rasterization or recognition call is caught
and the text gathered so far is returned (cleaned). -/
def extract_text_from_pdf (doc : List String)
    (rasterize : Nat → Nat → Except Unit (List String))
    (recognize : String → Except Unit String) : ExtractResult :=
  match (scanPages 1 doc).2 with
  | [] => ⟨cleanText (scanPages 1 doc).1, []⟩
  | p :: rest =>
    match rasterize (rest.foldl min p) (rest.foldl max p) with
    | .error _ =>
      ⟨cleanText (scanPages 1 doc).1, [(rest.foldl min p, rest.foldl max p)]⟩
    | .ok images =>
      ⟨cleanText (ocrLoop recognize
          ((List.range' (rest.foldl min p)
            (rest.foldl max p - rest.foldl min p + 1)).zip images)
          (p :: rest) (scanPages 1 doc).1),
        [(rest.foldl min p, rest.foldl max p)]⟩

/-- The 1-based numbers of the pages lacking embedded text, in page
order, starting the numbering at `n`. -/
def pagesWithoutText (n : Nat) : List String → List Nat
  | [] => []
  | p :: rest =>
    if pyStripStr p = "" then n :: pagesWithoutText (n + 1) rest
    else pagesWithoutText (n + 1) rest

/-- The concatenation, in page order, of the embedded texts of the pages
that have one, each followed by a newline. -/
def embeddedConcat : List String → String
  | [] => ""
  | p :: rest =>
    (if pyStripStr p = "" then "" else pyStripStr p ++ "\n") ++ embeddedConcat rest

/-- Python `min` over a non-empty list (0 for the empty list, a case the
extractor never reaches). -/
def pyMin : List Nat → Nat
  | [] => 0
  | p :: rest => rest.foldl min p

/-- Python `max` over a non-empty list (0 for the empty list, a case the
extractor never reaches). -/
def pyMax : List Nat → Nat
  | [] => 0
  | p :: rest => rest.foldl max p

/-- Three-page document of the end-to-end scenario: embedded text
`"Intro."` on page 1, image-only page 2, embedded `"Conclusion."` on
page 3. -/
def scenarioDoc : List String := ["Intro.", "", "Conclusion."]

/-- Rasterizer for the scenario: page 2 yields one image. -/
def scenarioRasterize : Nat → Nat → Except Unit (List String) :=
  fun a b => if a = 2 && b = 2 then .ok ["img-page-2"] else .error ()

/-- Recognition for the scenario: page 2's image reads "Middle content.". -/
def scenarioRecognize : String → Except Unit String :=
  fun img => if img = "img-page-2" then .ok "Middle content." else .error ()

/-- The recognized text contributed by the OCR loop for the requested
pages, given that page `m` received the first image: each requested page
whose offset falls inside the image list contributes its recognized text
plus a newline; the others contribute nothing. -/
def ocrAppended (m : Nat) (images : List String) (rec : String → String) :
    List Nat → String
  | [] => ""
  | p :: rest =>
    (if p - m < images.length then rec (images.getD (p - m) "") ++ "\n" else "") ++
      ocrAppended m images rec rest

/-- Python `sep.join(parts)`. -/
def joinSep (sep : String) : List String → String
  | [] => ""
  | [x] => x
  | x :: y :: rest => x ++ sep ++ joinSep sep (y :: rest)

/-- Prompt built by `generate_summary` (lines 108–112). -/
def summaryPrompt (text language : String) : String :=
  "You are a helpful assistant. Summarize the following document in a few simple sentences in "
    ++ language ++ ". "
    ++ "Focus only on the core message. The goal is a very quick overview.\n\n"
    ++ "DOCUMENT:\n---\n" ++ text

/-- `models.py` `generate_summary` (lines 102–118): with no configured
model, return the labeled-error string; otherwise call the service on
the summary prompt, turning a raised error into a labeled-error string. -/
def generate_summary (model : Option (String → Except String String))
    (text language : String) : String :=
  match model with
  | none => "Error: Gemini model is not configured. Please check API key."
  | some genService =>
    match genService (summaryPrompt text language) with
    | .ok t => t
    | .error e => "Error: Could not generate summary. (" ++ e ++ ")"

/-- Prompt built by `generate_explanation` (lines 127–142): base
directive and document, a feedback block quoting the newline-joined full
history when the history is non-empty, a keyword block when keywords are
present; the parts are joined with newlines. -/
def explanationPrompt (text language : String)
    (feedback_history user_keywords : List String) : String :=
  joinSep "\n"
    ([ "Explain the following document in " ++ language
         ++ " for a complete beginner. Use simple words, short sentences, and a friendly tone. "
         ++ "Crucially, provide a relatable, real-life example or analogy to make the main concept understandable.",
       "\nDOCUMENT:\n---\n" ++ text ] ++
     (if feedback_history ≠ [] then
       ["\nIMPROVEMENT INSTRUCTIONS:\nThe user was not satisfied with a previous version. "
          ++ "Based on their feedback, please refine the explanation. Feedback: '"
          ++ joinSep "\n" feedback_history ++ "'"]
      else []) ++
     (if user_keywords ≠ [] then
       ["\nUSER PREFERENCES: The user is particularly interested in these topics: "
          ++ joinSep ", " user_keywords ++ ". Please emphasize them if relevant."]
      else []))

/-- `models.py` `generate_explanation` (lines 120–149). -/
def generate_explanation (model : Option (String → Except String String))
    (text language : String)
    (feedback_history user_keywords : List String) : String :=
  match model with
  | none => "Error: Gemini model is not configured. Please check API key."
  | some genService =>
    match genService (explanationPrompt text language feedback_history user_keywords) with
    | .ok t => t
    | .error e => "Error: Could not generate explanation. (" ++ e ++ ")"

/-- The labeled-error marker test: generation failures are strings
prefixed with `"Error:"`. -/
def hasErrorMarker (s : String) : Bool :=
  "Error:".data.isPrefixOf s.data

/-- The character class `[\*#_\x60~]` of the markdown-stripping
substitution on line 157. -/
def isMdChar (c : Char) : Bool :=
  c = '*' || c = '#' || c = '_' || c = '`' || c = '~'

/-- Scanner implementing `re.sub(r"[\*#_\x60~]+", "", text)`: each
maximal run of markdown-emphasis characters is a match, replaced by the
empty string; all other characters are copied. -/
def mdSub : List Char → List Char
  | [] => []
  | c :: rest =>
    if isMdChar c then mdSub (rest.dropWhile isMdChar)
    else c :: mdSub rest
termination_by l => l.length
decreasing_by
  · simp only [List.length_cons]
    exact Nat.lt_succ_of_le (List.Sublist.length_le (List.dropWhile_sublist _))
  · simp only [List.length_cons]
    exact Nat.lt_succ_self _

/-- The markdown cleanup of `text_to_speech`
(`clean_audio_text`, line 157). -/
def removeMarkdown (s : String) : String := ⟨mdSub s.data⟩

/-- `models.py` `text_to_speech` (lines 151–166): strip markdown, then
synthesize; a raising synthesis call yields `None`, otherwise the audio
artifact (the temporary file path) is returned. -/
def text_to_speech (synthesize : String → String → Except Unit String)
    (text lang_code : String) : Option String :=
  match synthesize (removeMarkdown text) lang_code with
  | .ok path => some path
  | .error _ => none

/-- Artifacts of one workflow run shown to the user. -/
structure WorkflowResult where
  summary : String
  explanation : String
  audio : Option String

/-- Modelled from the spec: the `Generating → Synthesizing → Ready` step
of the Session Workflow Controller (§4.7) for the `models.py`
generators (from the third script generation, missing from `src/`):
summary and explanation are always produced and shown; "Synthesizing is
skipped" — no audio artifact — when the explanation is a labeled-error
text, which downstream logic detects via the `Error:` marker (§3). -/
def processDocuments (model : Option (String → Except String String))
    (synthesize : String → String → Except Unit String)
    (corpus language lang_code : String) : WorkflowResult :=
  { summary := generate_summary model corpus language
    explanation := generate_explanation model corpus language [] []
    audio :=
      if hasErrorMarker (generate_explanation model corpus language [] []) then
        none
      else
        text_to_speech synthesize
          (generate_explanation model corpus language [] []) lang_code }

/-- Ingestion failure of §7: every document yielded empty text. -/
inductive IngestError where
  | NoTextExtracted
  deriving DecidableEq

/-- The fixed separator marker placed between documents' texts
(§3 CorpusText). -/
def documentSeparator : String := "--- (End of Document) ---"

/-- The extracted texts that contribute to the corpus: the non-empty
ones, in upload order. -/
def nonEmptyTexts (texts : List String) : List String :=
  texts.filter (fun t => t ≠ "")

/-- Modelled from the spec: corpus accumulation of the missing
controller (§4.4): documents are processed in upload order, a document
yielding no text contributes nothing, and each further non-empty text is
appended after a separator. -/
def corpusFold (acc : String) : List String → String
  | [] => acc
  | t :: rest =>
    if t = "" then corpusFold acc rest
    else if acc = "" then corpusFold t rest
    else corpusFold (acc ++ documentSeparator ++ t) rest

/-- Modelled from the spec: multi-document ingestion outcome (§4.4, §7):
if every document yielded empty text the request fails with
`NoTextExtracted`, otherwise the corpus is the accumulated join. -/
def buildCorpus (texts : List String) : Except IngestError String :=
  if corpusFold "" texts = "" then .error .NoTextExtracted
  else .ok (corpusFold "" texts)

/-- The list is empty or starts with a non-whitespace character. -/
def headNonWs (l : List Char) : Bool :=
  match l.head? with
  | none => true
  | some d => !isPyWs d

/-- A non-empty string fixed by `clean_text`: no whitespace block with
two newlines, no tab or double space, no leading or trailing
whitespace. -/
def NormalizedStr (s : String) : Prop :=
  s ≠ "" ∧ nlOk s.data = true ∧ spOk s.data = true ∧
    headNonWs s.data = true ∧ headNonWs s.data.reverse = true

/-! ## Theorems -/

/-- Characters recognized by `isSpTab` are whitespace. -/
theorem isPyWs_of_isSpTab {c : Char} (h : isSpTab c = true) : isPyWs c = true := by
  simp only [isSpTab, Bool.or_eq_true, decide_eq_true_eq] at h
  rcases h with h | h <;> subst h <;> decide

/-- A character failing `isSpTab` is not a tab. -/
theorem ne_tab_of_not_isSpTab {c : Char} (h : isSpTab c = false) : ¬ c = '\t' := by
  intro hc; subst hc; simp [isSpTab] at h

/-- `takeWhile` over an append whose left part wholly satisfies the predicate. -/
theorem takeWhile_append_of_all {p : Char → Bool} {a : List Char}
    (h : ∀ x ∈ a, p x = true) (b : List Char) :
    (a ++ b).takeWhile p = a ++ b.takeWhile p := by
  induction a with
  | nil => simp
  | cons x a ih =>
    have hx : p x = true := h x (by simp)
    simp only [List.cons_append, List.takeWhile_cons, hx, if_true]
    exact congrArg (x :: ·) (ih (fun y hy => h y (by simp [hy])))

/-- Membership in `takeWhile` of a prefix carries over to the longer list. -/
theorem mem_takeWhile_append {p : Char → Bool} {a b : List Char} {x : Char}
    (h : x ∈ a.takeWhile p) : x ∈ (a ++ b).takeWhile p := by
  induction a with
  | nil => simp at h
  | cons y a ih =>
    by_cases hy : p y = true
    · simp only [List.takeWhile_cons, hy, if_true, List.mem_cons] at h
      simp only [List.cons_append, List.takeWhile_cons, hy, if_true, List.mem_cons]
      exact h.imp id ih
    · simp [List.takeWhile_cons, hy] at h

/-- `nlOk` is preserved when a leading block is removed. -/
theorem nlOk_append_right {a b : List Char} (h : nlOk (a ++ b) = true) :
    nlOk b = true := by
  induction a with
  | nil => exact h
  | cons x a ih =>
    rw [List.cons_append, nlOk, Bool.and_eq_true] at h
    exact ih h.2

/-- `nlOk` is preserved when a trailing block is removed. -/
theorem nlOk_append_left {a b : List Char} (h : nlOk (a ++ b) = true) :
    nlOk a = true := by
  induction a with
  | nil => rfl
  | cons x a ih =>
    rw [List.cons_append, nlOk, Bool.and_eq_true] at h
    rw [nlOk, Bool.and_eq_true]
    refine ⟨?_, ih h.2⟩
    by_cases hx : x = '\n'
    · simp only [hx, if_true, Bool.not_eq_eq_eq_not, Bool.not_true, decide_eq_false_iff_not] at *
      exact fun hmem => h.1 (mem_takeWhile_append hmem)
    · simp [hx]

/-- `spOk` is preserved when a leading block is removed. -/
theorem spOk_append_right {a b : List Char} (h : spOk (a ++ b) = true) :
    spOk b = true := by
  induction a with
  | nil => exact h
  | cons x a ih =>
    rw [List.cons_append, spOk, Bool.and_eq_true] at h
    exact ih h.2

/-- `spOk` is preserved when a trailing block is removed. -/
theorem spOk_append_left {a b : List Char} (h : spOk (a ++ b) = true) :
    spOk a = true := by
  induction a with
  | nil => rfl
  | cons x a ih =>
    rw [List.cons_append, spOk, Bool.and_eq_true] at h
    rw [spOk, Bool.and_eq_true]
    refine ⟨?_, ih h.2⟩
    rcases h with ⟨h1, -⟩
    rw [Bool.and_eq_true] at h1 ⊢
    refine ⟨h1.1, ?_⟩
    cases a with
    | nil => rfl
    | cons y a => simpa using h1.2

/-- Collapsing a run never leaves two newlines. -/
theorem count_collapseNlRun_le (run : List Char) :
    (collapseNlRun run).count '\n' ≤ 1 := by
  unfold collapseNlRun
  by_cases h : 2 ≤ run.count '\n'
  · rw [if_pos h]
    have hpre : (run.takeWhile (fun c => c ≠ '\n')).count '\n' = 0 := by
      rw [List.count_eq_zero]
      intro hmem
      have := List.mem_takeWhile_imp hmem
      simp at this
    have hpost : ((run.reverse.takeWhile (fun c => c ≠ '\n')).reverse).count '\n' = 0 := by
      rw [List.count_eq_zero, List.mem_reverse]
      intro hmem
      have := List.mem_takeWhile_imp hmem
      simp at this
    rw [List.count_append, hpre, List.count_cons_self, hpost]
  · rw [if_neg h]; omega

/-- A run with at most one newline is left untouched. -/
theorem collapseNlRun_eq_self {run : List Char} (h : run.count '\n' ≤ 1) :
    collapseNlRun run = run := by
  unfold collapseNlRun
  rw [if_neg (by omega)]

/-- Collapsing keeps the run whitespace-only. -/
theorem allWs_collapseNlRun {run : List Char} (h : AllWs run) :
    AllWs (collapseNlRun run) := by
  unfold collapseNlRun
  by_cases hc : 2 ≤ run.count '\n'
  · rw [if_pos hc]
    intro c hmem
    rw [List.mem_append] at hmem
    rcases hmem with hmem | hmem
    · exact h c ((List.takeWhile_sublist _).mem hmem)
    · rw [List.mem_cons] at hmem
      rcases hmem with rfl | hmem
      · decide
      · rw [List.mem_reverse] at hmem
        have := (List.takeWhile_sublist (l := run.reverse) (fun c => c ≠ '\n')).mem hmem
        exact h c (List.mem_reverse.mp this)
  · rw [if_neg hc]; exact h

/-- A whitespace-only block with at most one newline satisfies `nlOk`. -/
theorem nlOk_of_allWs {a : List Char} (hws : AllWs a) (hcount : a.count '\n' ≤ 1) :
    nlOk a = true := by
  induction a with
  | nil => rfl
  | cons x a ih =>
    rw [nlOk, Bool.and_eq_true]
    have hca : a.count '\n' ≤ (x :: a).count '\n' := by
      rw [List.count_cons]; exact Nat.le_add_right _ _
    refine ⟨?_, ih (fun c hc => hws c (by simp [hc])) (le_trans hca hcount)⟩
    by_cases hx : x = '\n'
    · subst hx
      have h0 : a.count '\n' = 0 := by
        rw [List.count_cons_self] at hcount; omega
      rw [List.count_eq_zero] at h0
      simp only [if_true, Bool.not_eq_eq_eq_not, Bool.not_true, decide_eq_false_iff_not]
      exact fun hmem => h0 ((List.takeWhile_sublist _).mem hmem)
    · simp [hx]

/-- Appending a whitespace block with at most one newline, a non-whitespace
character, and an `nlOk` tail yields an `nlOk` list. -/
theorem nlOk_ws_append {a : List Char} (hws : AllWs a) (hcount : a.count '\n' ≤ 1)
    {c : Char} (hc : isPyWs c = false) {b : List Char} (hb : nlOk b = true) :
    nlOk (a ++ c :: b) = true := by
  induction a with
  | nil =>
    rw [List.nil_append, nlOk, Bool.and_eq_true]
    refine ⟨?_, hb⟩
    have : ¬ c = '\n' := by
      intro h; subst h; simp [isPyWs] at hc
    simp [this]
  | cons x a ih =>
    rw [List.cons_append, nlOk, Bool.and_eq_true]
    have hca : a.count '\n' ≤ (x :: a).count '\n' := by
      rw [List.count_cons]; exact Nat.le_add_right _ _
    refine ⟨?_, ih (fun y hy => hws y (by simp [hy])) (le_trans hca hcount)⟩
    by_cases hx : x = '\n'
    · subst hx
      have h0 : a.count '\n' = 0 := by
        rw [List.count_cons_self] at hcount; omega
      rw [List.count_eq_zero] at h0
      have hta : (a ++ c :: b).takeWhile isPyWs = a := by
        rw [takeWhile_append_of_all (fun y hy => hws y (by simp [hy]))]
        simp [List.takeWhile_cons, hc]
      simp only [if_true, hta, Bool.not_eq_eq_eq_not, Bool.not_true,
        decide_eq_false_iff_not]
      exact h0
    · simp [hx]

/-- The output of the newline substitution always satisfies `nlOk`. -/
theorem nlOk_nlSubGo (l : List Char) :
    ∀ pending, AllWs pending → nlOk (nlSubGo pending l) = true := by
  induction l with
  | nil =>
    intro pending hp
    exact nlOk_of_allWs (allWs_collapseNlRun hp) (count_collapseNlRun_le pending)
  | cons c rest ih =>
    intro pending hp
    rw [nlSubGo]
    by_cases hc : isPyWs c = true
    · rw [if_pos hc]
      exact ih _ (fun y hy => by
        rcases List.mem_append.mp hy with hy | hy
        · exact hp y hy
        · simp at hy; subst hy; exact hc)
    · rw [if_neg hc]
      exact nlOk_ws_append (allWs_collapseNlRun hp) (count_collapseNlRun_le pending)
        (Bool.not_eq_true _ ▸ hc) (ih [] (by intro y hy; simp at hy))

/-- `nlSub` output satisfies `nlOk`. -/
theorem nlOk_nlSub (l : List Char) : nlOk (nlSub l) = true :=
  nlOk_nlSubGo l [] (by intro y hy; simp at hy)

/-- On an `nlOk` list the leading whitespace stretch has at most one newline. -/
theorem count_takeWhile_le_of_nlOk {l : List Char} (h : nlOk l = true) :
    (l.takeWhile isPyWs).count '\n' ≤ 1 := by
  induction l with
  | nil => simp
  | cons c rest ih =>
    rw [nlOk, Bool.and_eq_true] at h
    by_cases hc : isPyWs c = true
    · rw [List.takeWhile_cons, if_pos hc]
      by_cases hx : c = '\n'
      · subst hx
        rcases h with ⟨h1, -⟩
        simp only [if_true, Bool.not_eq_eq_eq_not, Bool.not_true,
          decide_eq_false_iff_not] at h1
        have h0 : (rest.takeWhile isPyWs).count '\n' = 0 := List.count_eq_zero.mpr h1
        rw [List.count_cons_self, h0]
      · rw [List.count_cons_of_ne (Ne.symm hx)]
        exact ih h.2
    · rw [List.takeWhile_cons, if_neg hc]
      exact Nat.zero_le 1

/-- On an `nlOk` list the substitution finds no match. -/
theorem nlSubGo_eq_self (l : List Char) : ∀ pending, AllWs pending →
    (pending ++ l.takeWhile isPyWs).count '\n' ≤ 1 → nlOk l = true →
    nlSubGo pending l = pending ++ l := by
  induction l with
  | nil =>
    intro pending _ hcount _
    rw [nlSubGo, List.append_nil]
    exact collapseNlRun_eq_self (by simpa using hcount)
  | cons c rest ih =>
    intro pending hp hcount hok
    rw [nlOk, Bool.and_eq_true] at hok
    rw [nlSubGo]
    by_cases hc : isPyWs c = true
    · rw [if_pos hc]
      have hcount' : ((pending ++ [c]) ++ rest.takeWhile isPyWs).count '\n' ≤ 1 := by
        rw [List.takeWhile_cons, if_pos hc] at hcount
        rw [List.append_assoc]
        exact hcount
      have := ih (pending ++ [c])
        (fun y hy => by
          rcases List.mem_append.mp hy with hy | hy
          · exact hp y hy
          · simp at hy; subst hy; exact hc) hcount' hok.2
      rw [this, List.append_assoc]; rfl
    · rw [if_neg hc]
      have hcp : pending.count '\n' ≤ 1 := by
        rw [List.takeWhile_cons, if_neg hc] at hcount
        simpa using hcount
      rw [collapseNlRun_eq_self hcp]
      have := ih [] (by intro y hy; simp at hy)
        (by simpa using count_takeWhile_le_of_nlOk hok.2) hok.2
      rw [this, List.nil_append]

/-- `nlSub` fixes every `nlOk` list. -/
theorem nlSub_eq_self {l : List Char} (h : nlOk l = true) : nlSub l = l := by
  have := nlSubGo_eq_self l [] (by intro y hy; simp at hy)
    (by simpa using count_takeWhile_le_of_nlOk h) h
  simpa [nlSub] using this

/-- While inside a replaced run, the next emitted character is not a
space or tab. -/
theorem spSubGo_true_head {l : List Char} {d : Char}
    (h : (spSubGo true l).head? = some d) : isSpTab d = false := by
  induction l with
  | nil => simp [spSubGo] at h
  | cons c rest ih =>
    rw [spSubGo] at h
    by_cases hc : isSpTab c = true
    · rw [if_pos hc] at h; exact ih h
    · rw [if_neg hc] at h
      simp at h
      rw [← h]
      exact Bool.not_eq_true _ ▸ hc

/-- The output of the space/tab substitution always satisfies `spOk`. -/
theorem spOk_spSubGo (l : List Char) : ∀ b, spOk (spSubGo b l) = true := by
  induction l with
  | nil => intro b; rfl
  | cons c rest ih =>
    intro b
    rw [spSubGo]
    by_cases hc : isSpTab c = true
    · rw [if_pos hc]
      cases b with
      | true => exact ih true
      | false =>
        rw [if_neg Bool.false_ne_true]
        rw [spOk, Bool.and_eq_true]
        refine ⟨?_, ih true⟩
        rw [Bool.and_eq_true]
        refine ⟨by decide, ?_⟩
        cases hh : (spSubGo true rest).head? with
        | none => simp
        | some d => simp [spSubGo_true_head hh]
    · rw [if_neg hc]
      rw [spOk, Bool.and_eq_true]
      refine ⟨?_, ih false⟩
      rw [Bool.and_eq_true]
      have hct := ne_tab_of_not_isSpTab (Bool.not_eq_true _ ▸ hc)
      refine ⟨by simp [hct], ?_⟩
      cases hh : (spSubGo false rest).head? with
      | none => simp
      | some d => simp [Bool.not_eq_true _ ▸ hc]

/-- `spSub` output satisfies `spOk`. -/
theorem spOk_spSub (l : List Char) : spOk (spSub l) = true :=
  spOk_spSubGo l false

/-- When the head is not a space or tab, the run state is irrelevant. -/
theorem spSubGo_true_eq_false {l : List Char}
    (h : ∀ d, l.head? = some d → isSpTab d = false) :
    spSubGo true l = spSubGo false l := by
  cases l with
  | nil => rfl
  | cons c rest =>
    have hc := h c rfl
    rw [spSubGo, spSubGo, if_neg (by simp [hc]), if_neg (by simp [hc])]

/-- `spSub` fixes every `spOk` list. -/
theorem spSub_eq_self {l : List Char} (h : spOk l = true) : spSub l = l := by
  rw [spSub]
  induction l with
  | nil => rfl
  | cons c rest ih =>
    rw [spOk, Bool.and_eq_true, Bool.and_eq_true] at h
    rcases h with ⟨⟨hct, hadj⟩, hrest⟩
    rw [spSubGo]
    by_cases hc : isSpTab c = true
    · rw [if_pos hc]
      rw [if_neg Bool.false_ne_true]
      have hcsp : c = ' ' := by
        simp only [isSpTab, Bool.or_eq_true, decide_eq_true_eq] at hc
        rcases hc with h | h
        · exact h
        · exfalso; simp [h] at hct
      have hhead : ∀ d, rest.head? = some d → isSpTab d = false := by
        intro d hd
        cases rest with
        | nil => simp at hd
        | cons e rest' =>
          simp at hd
          subst hd
          simp only [List.head?_cons, hc, Bool.true_and] at hadj
          simpa using hadj
      rw [spSubGo_true_eq_false hhead, ih hrest, hcsp]
    · rw [if_neg hc, ih hrest]

/-- A newline surviving in the leading whitespace of the substituted list
was already in the leading whitespace of the input. -/
theorem mem_takeWhile_spSubGo {l : List Char} :
    ∀ b, '\n' ∈ ((spSubGo b l).takeWhile isPyWs) → '\n' ∈ (l.takeWhile isPyWs) := by
  induction l with
  | nil => intro b h; simp [spSubGo] at h
  | cons c rest ih =>
    intro b h
    rw [spSubGo] at h
    by_cases hc : isSpTab c = true
    · have hcw : isPyWs c = true := isPyWs_of_isSpTab hc
      rw [List.takeWhile_cons, if_pos hcw]
      rw [if_pos hc] at h
      cases b with
      | true => exact List.mem_cons_of_mem _ (ih true h)
      | false =>
        rw [if_neg Bool.false_ne_true] at h
        rw [List.takeWhile_cons, if_pos (by decide : isPyWs ' ' = true)] at h
        rcases List.mem_cons.mp h with h | h
        · exact absurd h.symm (by decide)
        · exact List.mem_cons_of_mem _ (ih true h)
    · rw [if_neg hc] at h
      by_cases hcw : isPyWs c = true
      · rw [List.takeWhile_cons, if_pos hcw] at h ⊢
        rcases List.mem_cons.mp h with h | h
        · exact h ▸ List.mem_cons_self _ _
        · exact List.mem_cons_of_mem _ (ih false h)
      · rw [List.takeWhile_cons, if_neg hcw] at h
        simp at h

/-- The space/tab substitution preserves `nlOk`. -/
theorem nlOk_spSubGo {l : List Char} (h : nlOk l = true) :
    ∀ b, nlOk (spSubGo b l) = true := by
  induction l with
  | nil => intro b; rfl
  | cons c rest ih =>
    intro b
    rw [nlOk, Bool.and_eq_true] at h
    rw [spSubGo]
    by_cases hc : isSpTab c = true
    · rw [if_pos hc]
      cases b with
      | true => exact ih h.2 true
      | false =>
        rw [if_neg Bool.false_ne_true]
        rw [nlOk, Bool.and_eq_true]
        exact ⟨by simp, ih h.2 true⟩
    · rw [if_neg hc]
      rw [nlOk, Bool.and_eq_true]
      refine ⟨?_, ih h.2 false⟩
      by_cases hx : c = '\n'
      · subst hx
        rcases h with ⟨h1, -⟩
        simp only [if_true, Bool.not_eq_eq_eq_not, Bool.not_true,
          decide_eq_false_iff_not] at h1 ⊢
        exact fun hmem => h1 (mem_takeWhile_spSubGo false hmem)
      · simp [hx]

/-- `spSub` preserves `nlOk`. -/
theorem nlOk_spSub {l : List Char} (h : nlOk l = true) : nlOk (spSub l) = true :=
  nlOk_spSubGo h false

/-- The head surviving `dropWhile` fails the predicate. -/
theorem dropWhile_head_false {p : Char → Bool} {l : List Char} {d : Char}
    (h : (l.dropWhile p).head? = some d) : p d = false := by
  induction l with
  | nil => simp at h
  | cons c rest ih =>
    rw [List.dropWhile_cons] at h
    by_cases hc : p c = true
    · rw [if_pos hc] at h; exact ih h
    · rw [if_neg hc] at h
      simp at h
      rw [← h]
      exact Bool.not_eq_true _ ▸ hc

/-- `dropWhile` fixes a list whose head fails the predicate. -/
theorem dropWhile_eq_self {p : Char → Bool} {l : List Char}
    (h : ∀ d, l.head? = some d → p d = false) : l.dropWhile p = l := by
  cases l with
  | nil => rfl
  | cons c rest =>
    rw [List.dropWhile_cons, if_neg (by simp [h c rfl])]

/-- `dropWhile` is idempotent. -/
theorem dropWhile_dropWhile {p : Char → Bool} {l : List Char} :
    (l.dropWhile p).dropWhile p = l.dropWhile p :=
  dropWhile_eq_self (fun _ hd => dropWhile_head_false hd)

/-- The stripped list sits inside the original. -/
theorem pyStrip_decomp (l : List Char) : ∃ a b, a ++ (pyStrip l ++ b) = l := by
  refine ⟨l.takeWhile isPyWs,
    ((l.dropWhile isPyWs).reverse.takeWhile isPyWs).reverse, ?_⟩
  rw [pyStrip, ← List.reverse_append, List.takeWhile_append_dropWhile,
    List.reverse_reverse, List.takeWhile_append_dropWhile]

/-- `pyStrip` preserves `nlOk`. -/
theorem nlOk_pyStrip {l : List Char} (h : nlOk l = true) :
    nlOk (pyStrip l) = true := by
  obtain ⟨a, b, hab⟩ := pyStrip_decomp l
  rw [← hab] at h
  exact nlOk_append_left (nlOk_append_right h)

/-- `pyStrip` preserves `spOk`. -/
theorem spOk_pyStrip {l : List Char} (h : spOk l = true) :
    spOk (pyStrip l) = true := by
  obtain ⟨a, b, hab⟩ := pyStrip_decomp l
  rw [← hab] at h
  exact spOk_append_left (spOk_append_right h)

/-- A stripped list has no leading whitespace left. -/
theorem pyStrip_drop_eq (l : List Char) :
    (pyStrip l).dropWhile isPyWs = pyStrip l := by
  apply dropWhile_eq_self
  intro d hd
  have ht : pyStrip l ++ ((l.dropWhile isPyWs).reverse.takeWhile isPyWs).reverse =
      l.dropWhile isPyWs := by
    rw [pyStrip, ← List.reverse_append, List.takeWhile_append_dropWhile,
      List.reverse_reverse]
  have hmy : (l.dropWhile isPyWs).head? = some d := by
    rw [← ht]
    cases hps : pyStrip l with
    | nil => rw [hps] at hd; simp at hd
    | cons c y =>
      rw [hps] at hd
      simp only [List.head?_cons, Option.some.injEq] at hd
      simp [hd]
  exact dropWhile_head_false hmy

/-- A stripped list has no trailing whitespace left. -/
theorem pyStrip_rev_drop_eq (l : List Char) :
    (pyStrip l).reverse.dropWhile isPyWs = (pyStrip l).reverse := by
  rw [pyStrip, List.reverse_reverse]
  exact dropWhile_dropWhile

/-- `pyStrip` is idempotent. -/
theorem pyStrip_idem (l : List Char) : pyStrip (pyStrip l) = pyStrip l := by
  show (((pyStrip l).dropWhile isPyWs).reverse.dropWhile isPyWs).reverse = pyStrip l
  rw [pyStrip_drop_eq, pyStrip_rev_drop_eq, List.reverse_reverse]

/-- `clean_text` is idempotent at the character-list level. -/
theorem clean_text_idem_list (l : List Char) :
    clean_text (clean_text l) = clean_text l := by
  have hnl : nlOk (clean_text l) = true :=
    nlOk_pyStrip (nlOk_spSub (nlOk_nlSub l))
  have hsp : spOk (clean_text l) = true :=
    spOk_pyStrip (spOk_spSub (nlSub l))
  show pyStrip (spSub (nlSub (clean_text l))) = clean_text l
  rw [nlSub_eq_self hnl, spSub_eq_self hsp]
  exact pyStrip_idem (spSub (nlSub l))

/-- C2: the text normalizer `clean_text` of `models.py` is idempotent:
for every input string `t`, `clean_text (clean_text t) = clean_text t`,
where `clean_text` collapses whitespace blocks holding several newlines
to one newline, collapses space/tab runs to one space, and trims leading
and trailing whitespace. -/
theorem claim_C2_cleanText_idempotent (t : String) :
    cleanText (cleanText t) = cleanText t :=
  congrArg String.mk (clean_text_idem_list t.data)

/-- The page scan queues exactly the pages lacking embedded text. -/
theorem scanPages_snd (n : Nat) (doc : List String) :
    (scanPages n doc).2 = pagesWithoutText n doc := by
  induction doc generalizing n with
  | nil => rfl
  | cons p rest ih =>
    rw [scanPages, pagesWithoutText]
    by_cases hp : pyStripStr p = ""
    · rw [if_pos hp, if_pos hp, ih]
    · rw [if_neg hp, if_neg hp, ih]

/-- The page scan accumulates exactly the embedded texts. -/
theorem scanPages_fst (n : Nat) (doc : List String) :
    (scanPages n doc).1 = embeddedConcat doc := by
  induction doc generalizing n with
  | nil => rfl
  | cons p rest ih =>
    rw [scanPages, embeddedConcat]
    by_cases hp : pyStripStr p = ""
    · rw [if_pos hp, if_pos hp, ih, String.empty_append]
    · rw [if_neg hp, if_neg hp, ih, String.append_assoc]

/-- C1: the extractor does NOT splice OCR results back into page order:
on the 3-page scenario document it appends the recognized text of page 2
after the embedded text of page 3, producing
`"Intro.\nConclusion.\nMiddle content."` instead of the page-ordered
normalization `"Intro.\nMiddle content.\nConclusion."` the specification
requires. -/
theorem claim_C1_ocr_appended_after_embedded_text :
    (extract_text_from_pdf scenarioDoc scenarioRasterize scenarioRecognize).text =
      "Intro.\nConclusion.\nMiddle content." ∧
    cleanText "Intro.\nMiddle content.\nConclusion.\n" =
      "Intro.\nMiddle content.\nConclusion." ∧
    (extract_text_from_pdf scenarioDoc scenarioRasterize scenarioRecognize).text ≠
      cleanText "Intro.\nMiddle content.\nConclusion.\n" := by
  refine ⟨by decide, by decide, by decide⟩

/-- Shape of extraction when every page has embedded text. -/
theorem extract_text_none (doc : List String)
    (rasterize : Nat → Nat → Except Unit (List String))
    (recognize : String → Except Unit String)
    (hp : (scanPages 1 doc).2 = []) :
    extract_text_from_pdf doc rasterize recognize =
      ⟨cleanText (scanPages 1 doc).1, []⟩ := by
  unfold extract_text_from_pdf
  rw [hp]

/-- Shape of extraction when some pages queue for OCR. -/
theorem extract_text_cons (doc : List String)
    (rasterize : Nat → Nat → Except Unit (List String))
    (recognize : String → Except Unit String) {p : Nat} {rest : List Nat}
    (hp : (scanPages 1 doc).2 = p :: rest) :
    extract_text_from_pdf doc rasterize recognize =
      match rasterize (rest.foldl min p) (rest.foldl max p) with
      | .error _ =>
        ⟨cleanText (scanPages 1 doc).1, [(rest.foldl min p, rest.foldl max p)]⟩
      | .ok images =>
        ⟨cleanText (ocrLoop recognize
            ((List.range' (rest.foldl min p)
              (rest.foldl max p - rest.foldl min p + 1)).zip images)
            (p :: rest) (scanPages 1 doc).1),
          [(rest.foldl min p, rest.foldl max p)]⟩ := by
  unfold extract_text_from_pdf
  rw [hp]

/-- C3: whenever at least one page lacks embedded text, the rasterizer is
invoked exactly once, on the inclusive 1-based range from the minimum to
the maximum of the page numbers lacking text. -/
theorem claim_C3_rasterize_called_once_min_max (doc : List String)
    (rasterize : Nat → Nat → Except Unit (List String))
    (recognize : String → Except Unit String)
    (h : pagesWithoutText 1 doc ≠ []) :
    (extract_text_from_pdf doc rasterize recognize).rasterCalls =
      [(pyMin (pagesWithoutText 1 doc), pyMax (pagesWithoutText 1 doc))] := by
  cases hp : pagesWithoutText 1 doc with
  | nil => exact absurd hp h
  | cons p rest =>
    have hp' : (scanPages 1 doc).2 = p :: rest := by rw [scanPages_snd, hp]
    rw [extract_text_cons doc rasterize recognize hp']
    simp only [pyMin, pyMax]
    cases hr : rasterize (rest.foldl min p) (rest.foldl max p) with
    | error => rfl
    | ok images => rfl

/-- Witness for C3 at a concrete two-page document whose first page is
image-only. -/
theorem claim_C3_rasterize_called_once_min_max_witness :
    pagesWithoutText 1 ["", "text", ""] ≠ [] ∧
    (extract_text_from_pdf ["", "text", ""] (fun _ _ => .error ())
        (fun _ => .error ())).rasterCalls =
      [(pyMin (pagesWithoutText 1 ["", "text", ""]),
        pyMax (pagesWithoutText 1 ["", "text", ""]))] :=
  ⟨by decide,
   claim_C3_rasterize_called_once_min_max ["", "text", ""] _ _ (by decide)⟩

/-- A recognition engine that always raises leaves the accumulator as it
was. -/
theorem ocrLoop_recognize_error (pmap : List (Nat × String)) (pages : List Nat)
    (acc : String) : ocrLoop (fun _ => .error ()) pmap pages acc = acc := by
  induction pages generalizing acc with
  | nil => rfl
  | cons p rest ih =>
    rw [ocrLoop]
    cases pmap.lookup p with
    | none => exact ih acc
    | some img => rfl

/-- C9: if rasterization (or recognition) raises for the whole batched
range, the extractor still returns normally, contributing empty text for
the affected pages: the result is the cleaned concatenation of the
embedded texts alone. -/
theorem claim_C9_ocr_failure_keeps_partial_result (doc : List String)
    (rasterize : Nat → Nat → Except Unit (List String))
    (recognize : String → Except Unit String) :
    (extract_text_from_pdf doc (fun _ _ => .error ()) recognize).text =
      cleanText (embeddedConcat doc) ∧
    (extract_text_from_pdf doc rasterize (fun _ => .error ())).text =
      cleanText (embeddedConcat doc) := by
  constructor
  · cases hp : (scanPages 1 doc).2 with
    | nil => rw [extract_text_none doc _ _ hp, scanPages_fst]
    | cons p rest => rw [extract_text_cons doc _ _ hp, scanPages_fst]
  · cases hp : (scanPages 1 doc).2 with
    | nil => rw [extract_text_none doc _ _ hp, scanPages_fst]
    | cons p rest =>
      rw [extract_text_cons doc _ _ hp, scanPages_fst]
      cases hr : rasterize (rest.foldl min p) (rest.foldl max p) with
      | error => rfl
      | ok images => simp only [ocrLoop_recognize_error]

/-- Lookup in the zip of a number range with a value list. -/
theorem lookup_zip_range' :
    ∀ (len m p : Nat) (images : List String),
      ((List.range' m len).zip images).lookup p =
        if m ≤ p ∧ p - m < min len images.length
        then some (images.getD (p - m) "") else none := by
  intro len
  induction len with
  | zero =>
    intro m p images
    simp [List.range']
  | succ len ih =>
    intro m p images
    cases images with
    | nil => simp
    | cons i is =>
      rw [List.range'_succ]
      have hmin : min (len + 1) (is.length + 1) = min len is.length + 1 :=
        Nat.succ_min_succ _ _
      by_cases hpm : p = m
      · subst hpm
        simp only [List.zip_cons_cons, List.lookup_cons, beq_self_eq_true, if_true]
        rw [if_pos ⟨le_refl p, by rw [List.length_cons, hmin]; omega⟩]
        simp
      · have hbeq : (p == m) = false := by simp [hpm]
        simp only [List.zip_cons_cons, List.lookup_cons, hbeq]
        rw [ih (m + 1) p is, List.length_cons, hmin]
        by_cases hcond : m + 1 ≤ p ∧ p - (m + 1) < min len is.length
        · rw [if_pos hcond, if_pos (by omega)]
          have hp1 : p - m = (p - (m + 1)) + 1 := by omega
          rw [hp1, List.getD_cons_succ]
        · rw [if_neg hcond, if_neg (by omega)]

/-- Folding `min` over a list starting from `a` bounds `a` and every
member from below. -/
theorem foldl_min_le (l : List Nat) :
    ∀ a : Nat, l.foldl min a ≤ a ∧ ∀ p ∈ l, l.foldl min a ≤ p := by
  induction l with
  | nil => intro a; exact ⟨le_refl a, by simp⟩
  | cons x l ih =>
    intro a
    refine ⟨le_trans (ih (min a x)).1 (min_le_left a x), ?_⟩
    intro p hp
    rcases List.mem_cons.mp hp with rfl | hp
    · exact le_trans (ih (min a p)).1 (min_le_right a p)
    · exact (ih (min a x)).2 p hp

/-- The minimum of a queued-page list bounds each queued page. -/
theorem pyMin_le_mem {l : List Nat} {q : Nat} (hq : q ∈ l) : pyMin l ≤ q := by
  cases l with
  | nil => simp at hq
  | cons p rest =>
    rcases List.mem_cons.mp hq with rfl | hq
    · exact (foldl_min_le rest q).1
    · exact (foldl_min_le rest p).2 q hq

/-- The OCR loop with a total recognizer and a possibly short image list:
every requested page that received an image contributes its recognized
text, the others are skipped, and nothing fails. -/
theorem ocrLoop_ok (rec : String → String) (m len : Nat) (images : List String)
    (hlen : images.length ≤ len) :
    ∀ pages : List Nat, (∀ p ∈ pages, m ≤ p) → ∀ acc : String,
      ocrLoop (fun i => .ok (rec i)) ((List.range' m len).zip images) pages acc =
        acc ++ ocrAppended m images rec pages := by
  intro pages
  induction pages with
  | nil => intro _ acc; rw [ocrLoop, ocrAppended, String.append_empty]
  | cons p rest ih =>
    intro hmem acc
    rw [ocrLoop, lookup_zip_range', Nat.min_eq_right hlen, ocrAppended]
    have hm : m ≤ p := hmem p (List.mem_cons_self p rest)
    by_cases hlt : p - m < images.length
    · rw [if_pos ⟨hm, hlt⟩]
      show ocrLoop _ _ rest (acc ++ rec (images.getD (p - m) "") ++ "\n") = _
      rw [ih (fun q hq => hmem q (List.mem_cons_of_mem p hq))]
      simp [String.append_assoc, hlt]
    · rw [if_neg (fun hcon => hlt hcon.2)]
      rw [ih (fun q hq => hmem q (List.mem_cons_of_mem p hq)) acc, if_neg hlt,
        String.empty_append]

/-- C10: when the rasterizer returns fewer images than the requested
inclusive range covers, recognition runs only for the requested pages
that received an image, the remaining pages are skipped without error,
and extraction returns the text gathered so far, cleaned. -/
theorem claim_C10_short_image_list_skips_pages (doc : List String)
    (images : List String) (rec : String → String)
    (h : pagesWithoutText 1 doc ≠ [])
    (hshort : images.length ≤
      pyMax (pagesWithoutText 1 doc) - pyMin (pagesWithoutText 1 doc) + 1) :
    (extract_text_from_pdf doc (fun _ _ => .ok images)
        (fun i => .ok (rec i))).text =
      cleanText (embeddedConcat doc ++
        ocrAppended (pyMin (pagesWithoutText 1 doc)) images rec
          (pagesWithoutText 1 doc)) := by
  cases hp : pagesWithoutText 1 doc with
  | nil => exact absurd hp h
  | cons p rest =>
    have hp' : (scanPages 1 doc).2 = p :: rest := by rw [scanPages_snd, hp]
    rw [extract_text_cons doc _ _ hp', scanPages_fst]
    rw [hp] at hshort
    simp only [pyMin, pyMax] at hshort ⊢
    rw [ocrLoop_ok rec (rest.foldl min p) (rest.foldl max p - rest.foldl min p + 1)
      images hshort (p :: rest)
      (fun q hq => pyMin_le_mem (l := p :: rest) hq)]

/-- Witness for C10: a 3-page all-image document whose rasterizer returns
a single image, so only page 1 is recognized. -/
theorem claim_C10_short_image_list_skips_pages_witness :
    pagesWithoutText 1 ["", "", ""] ≠ [] ∧
    (1 : Nat) ≤ pyMax (pagesWithoutText 1 ["", "", ""]) -
      pyMin (pagesWithoutText 1 ["", "", ""]) + 1 ∧
    (extract_text_from_pdf ["", "", ""] (fun _ _ => .ok ["only-image"])
        (fun i => .ok (i ++ "!"))).text =
      cleanText (embeddedConcat ["", "", ""] ++
        ocrAppended (pyMin (pagesWithoutText 1 ["", "", ""])) ["only-image"]
          (fun i => i ++ "!") (pagesWithoutText 1 ["", "", ""])) :=
  ⟨by decide, by decide,
   claim_C10_short_image_list_skips_pages ["", "", ""] ["only-image"] _
     (by decide) (by decide)⟩

/-- C6: with the generation service missing (model handle absent), both
generators return — totally, with no exception reaching the caller — a
string carrying the `"Error:"` marker as a prefix. -/
theorem claim_C6_unconfigured_model_yields_error_strings
    (text language : String) (fb kw : List String) :
    hasErrorMarker (generate_summary none text language) = true ∧
    hasErrorMarker (generate_explanation none text language fb kw) = true :=
  ⟨rfl, rfl⟩

/-- Joining keeps every element as a contiguous substring. -/
theorem joinSep_contains (sep : String) :
    ∀ (l : List String) (e : String), e ∈ l →
      ∃ u v : String, joinSep sep l = u ++ e ++ v := by
  intro l
  induction l with
  | nil => intro e he; simp at he
  | cons x rest ih =>
    intro e he
    cases rest with
    | nil =>
      rcases List.mem_cons.mp he with rfl | he
      · exact ⟨"", "", by rw [joinSep]; simp⟩
      · simp at he
    | cons y rest2 =>
      rcases List.mem_cons.mp he with rfl | he
      · exact ⟨"", sep ++ joinSep sep (y :: rest2), by
          rw [joinSep]
          simp [String.append_assoc]⟩
      · obtain ⟨u, v, hu⟩ := ih e he
        exact ⟨x ++ sep ++ u, v, by
          rw [joinSep, hu]
          simp [String.append_assoc]⟩

/-- Substring containment composes through an enclosing string. -/
theorem contains_through {t s e : String}
    (h1 : ∃ u v : String, t = u ++ s ++ v)
    (h2 : ∃ u v : String, s = u ++ e ++ v) :
    ∃ u v : String, t = u ++ e ++ v := by
  obtain ⟨u1, v1, h1⟩ := h1
  obtain ⟨u2, v2, h2⟩ := h2
  exact ⟨u1 ++ u2, v2 ++ v1, by rw [h1, h2]; simp [String.append_assoc]⟩

/-- C5: for a non-empty feedback history, the explanation prompt contains
every entry of the history as a contiguous substring (the whole joined
history is quoted), not only the latest entry. -/
theorem claim_C5_prompt_contains_every_feedback_entry
    (text language : String) (fb kw : List String) (e : String)
    (hfb : fb ≠ []) (he : e ∈ fb) :
    ∃ u v : String, explanationPrompt text language fb kw = u ++ e ++ v := by
  unfold explanationPrompt
  rw [if_pos hfb]
  set fbPart :=
    "\nIMPROVEMENT INSTRUCTIONS:\nThe user was not satisfied with a previous version. "
      ++ "Based on their feedback, please refine the explanation. Feedback: '"
      ++ joinSep "\n" fb ++ "'" with hfbPart
  have hmem : fbPart ∈
      ([ "Explain the following document in " ++ language
           ++ " for a complete beginner. Use simple words, short sentences, and a friendly tone. "
           ++ "Crucially, provide a relatable, real-life example or analogy to make the main concept understandable.",
         "\nDOCUMENT:\n---\n" ++ text ] ++ [fbPart] ++
       (if kw ≠ [] then
         ["\nUSER PREFERENCES: The user is particularly interested in these topics: "
            ++ joinSep ", " kw ++ ". Please emphasize them if relevant."]
        else [])) := by
    simp
  refine contains_through (joinSep_contains "\n" _ fbPart hmem) ?_
  refine contains_through
    ⟨"\nIMPROVEMENT INSTRUCTIONS:\nThe user was not satisfied with a previous version. "
       ++ "Based on their feedback, please refine the explanation. Feedback: '",
     "'", by rw [hfbPart]⟩ ?_
  exact joinSep_contains "\n" fb e he

/-- Witness for C5 at the history `["too long", "add an analogy"]`: the
second (and by the theorem also the first) entry appears in the prompt. -/
theorem claim_C5_prompt_contains_every_feedback_entry_witness :
    (["too long", "add an analogy"] : List String) ≠ [] ∧
    "add an analogy" ∈ (["too long", "add an analogy"] : List String) ∧
    (∃ u v : String,
      explanationPrompt "doc" "English" ["too long", "add an analogy"] [] =
        u ++ "add an analogy" ++ v) :=
  ⟨by decide, by decide,
   claim_C5_prompt_contains_every_feedback_entry "doc" "English"
     ["too long", "add an analogy"] [] "add an analogy" (by decide) (by decide)⟩

/-- Dropping a run of markdown characters does not change the
markdown-free content. -/
theorem filter_dropWhile_md (rest : List Char) :
    (rest.dropWhile isMdChar).filter (fun c => !isMdChar c) =
      rest.filter (fun c => !isMdChar c) := by
  induction rest with
  | nil => rfl
  | cons c rest ih =>
    by_cases hc : isMdChar c = true
    · rw [List.dropWhile_cons, if_pos hc, ih, List.filter_cons]
      simp [hc]
    · rw [List.dropWhile_cons, if_neg hc]

/-- The run-based substitution removes exactly the markdown characters:
it agrees with filtering them out. -/
theorem mdSub_eq_filter : ∀ (n : Nat) (l : List Char), l.length ≤ n →
    mdSub l = l.filter (fun c => !isMdChar c) := by
  intro n
  induction n with
  | zero =>
    intro l hl
    rw [List.eq_nil_of_length_eq_zero (Nat.le_zero.mp hl)]
    simp [mdSub]
  | succ n ih =>
    intro l hl
    cases l with
    | nil => simp [mdSub]
    | cons c rest =>
      rw [List.length_cons] at hl
      simp only [mdSub]
      by_cases hc : isMdChar c = true
      · rw [if_pos hc,
          ih (rest.dropWhile isMdChar)
            (le_trans (List.Sublist.length_le (List.dropWhile_sublist _)) (by omega)),
          filter_dropWhile_md, List.filter_cons]
        simp [hc]
      · rw [if_neg hc, ih rest (by omega), List.filter_cons]
        simp [Bool.not_eq_true _ ▸ hc]

/-- C7: the speech renderer's cleanup removes exactly the literal
characters `*`, `_`, backtick, `~`, `#` — every occurrence of each — and
leaves every other character unchanged (the result is the subsequence of
non-markdown characters); in particular
`"**bold** text_with_underscore"` becomes `"bold textwithunderscore"`. -/
theorem claim_C7_markdown_chars_removed :
    (∀ s : String, removeMarkdown s = ⟨s.data.filter (fun c => !isMdChar c)⟩) ∧
    removeMarkdown "**bold** text_with_underscore" = "bold textwithunderscore" := by
  have hmain : ∀ s : String,
      removeMarkdown s = ⟨s.data.filter (fun c => !isMdChar c)⟩ := by
    intro s
    unfold removeMarkdown
    rw [mdSub_eq_filter s.data.length s.data (le_refl _)]
  refine ⟨hmain, ?_⟩
  rw [hmain]
  decide

/-- C4: when the explanation result carries the `Error:` marker, the
controller skips speech synthesis entirely — no audio artifact is
produced — while the summary and the explanation text are still
produced and shown. -/
theorem claim_C4_error_explanation_skips_synthesis
    (model : Option (String → Except String String))
    (synthesize : String → String → Except Unit String)
    (corpus language lang_code : String)
    (h : hasErrorMarker (generate_explanation model corpus language [] []) = true) :
    (processDocuments model synthesize corpus language lang_code).audio = none ∧
    (processDocuments model synthesize corpus language lang_code).summary =
      generate_summary model corpus language ∧
    (processDocuments model synthesize corpus language lang_code).explanation =
      generate_explanation model corpus language [] [] := by
  refine ⟨?_, rfl, rfl⟩
  show (if hasErrorMarker (generate_explanation model corpus language [] []) then
          none
        else
          text_to_speech synthesize
            (generate_explanation model corpus language [] []) lang_code) = none
  rw [if_pos h]

/-- Witness for C4: with the service unconfigured the explanation is
error-marked and no audio artifact is produced, although the synthesizer
itself would have succeeded. -/
theorem claim_C4_error_explanation_skips_synthesis_witness :
    hasErrorMarker (generate_explanation none "doc" "English" [] []) = true ∧
    (processDocuments none (fun _ _ => .ok "audio.mp3")
      "doc" "English" "en").audio = none :=
  ⟨rfl,
   (claim_C4_error_explanation_skips_synthesis none (fun _ _ => .ok "audio.mp3")
     "doc" "English" "en" rfl).1⟩

/-- A string with a non-empty left part stays non-empty under append. -/
theorem append_ne_empty_left {a : String} (h : a ≠ "") (b : String) :
    a ++ b ≠ "" := by
  intro hc
  apply h
  have hdata := congrArg String.data hc
  rw [String.data_append] at hdata
  rcases List.append_eq_nil.mp hdata with ⟨ha, -⟩
  exact String.ext ha

/-- An empty text contributes nothing to the non-empty texts. -/
theorem nonEmptyTexts_cons_eq {t : String} (ht : t = "") (rest : List String) :
    nonEmptyTexts (t :: rest) = nonEmptyTexts rest := by
  simp [nonEmptyTexts, List.filter_cons, ht]

/-- A non-empty text heads the non-empty texts. -/
theorem nonEmptyTexts_cons_ne {t : String} (ht : ¬ t = "") (rest : List String) :
    nonEmptyTexts (t :: rest) = t :: nonEmptyTexts rest := by
  simp [nonEmptyTexts, List.filter_cons, ht]

/-- Folding from a non-empty accumulator separator-joins the remaining
non-empty texts after it. -/
theorem corpusFold_ne_acc (texts : List String) : ∀ acc : String, acc ≠ "" →
    corpusFold acc texts = joinSep documentSeparator (acc :: nonEmptyTexts texts) := by
  induction texts with
  | nil => intro acc _; rfl
  | cons t rest ih =>
    intro acc hacc
    rw [corpusFold]
    by_cases ht : t = ""
    · rw [if_pos ht, ih acc hacc, nonEmptyTexts_cons_eq ht]
    · rw [if_neg ht, if_neg hacc,
        ih (acc ++ documentSeparator ++ t)
          (append_ne_empty_left (append_ne_empty_left hacc _) _),
        nonEmptyTexts_cons_ne ht]
      cases hf : nonEmptyTexts rest with
      | nil => rfl
      | cons f fr => simp [joinSep, String.append_assoc]

/-- The operational corpus fold equals the separator-join of the
non-empty texts, in upload order. -/
theorem corpusFold_empty_acc (texts : List String) :
    corpusFold "" texts = joinSep documentSeparator (nonEmptyTexts texts) := by
  induction texts with
  | nil => rfl
  | cons t rest ih =>
    rw [corpusFold]
    by_cases ht : t = ""
    · rw [if_pos ht, ih, nonEmptyTexts_cons_eq ht]
    · rw [if_neg ht, if_pos rfl, corpusFold_ne_acc rest t ht,
        nonEmptyTexts_cons_ne ht]

/-- `takeWhile` stops before a block whose head is not whitespace. -/
theorem takeWhile_ws_append {a b : List Char} (hb : headNonWs b = true) :
    (a ++ b).takeWhile isPyWs = a.takeWhile isPyWs := by
  induction a with
  | nil =>
    cases b with
    | nil => rfl
    | cons d b' =>
      rw [headNonWs] at hb
      simp only [List.head?_cons, Bool.not_eq_true'] at hb
      rw [List.nil_append, List.takeWhile_cons, if_neg (by simp [hb])]
      rfl
  | cons x a ih =>
    rw [List.cons_append, List.takeWhile_cons, List.takeWhile_cons]
    by_cases hx : isPyWs x = true
    · rw [if_pos hx, if_pos hx, ih]
    · rw [if_neg hx, if_neg hx]

/-- `nlOk` is closed under appending a block with a non-whitespace head. -/
theorem nlOk_append_intro {a b : List Char} (ha : nlOk a = true)
    (hb : nlOk b = true) (hbh : headNonWs b = true) : nlOk (a ++ b) = true := by
  induction a with
  | nil => exact hb
  | cons x a ih =>
    rw [nlOk, Bool.and_eq_true] at ha
    rw [List.cons_append, nlOk, Bool.and_eq_true]
    refine ⟨?_, ih ha.2⟩
    by_cases hx : x = '\n'
    · subst hx
      simp only [if_true] at *
      rw [takeWhile_ws_append hbh]
      exact ha.1
    · simp [hx]

/-- `spOk` is closed under appending a block with a non-whitespace head. -/
theorem spOk_append_intro {a b : List Char} (ha : spOk a = true)
    (hb : spOk b = true) (hbh : headNonWs b = true) : spOk (a ++ b) = true := by
  induction a with
  | nil => exact hb
  | cons x a ih =>
    rw [spOk, Bool.and_eq_true, Bool.and_eq_true] at ha
    rcases ha with ⟨⟨hx, hadj⟩, ha2⟩
    rw [List.cons_append, spOk, Bool.and_eq_true, Bool.and_eq_true]
    refine ⟨⟨hx, ?_⟩, ih ha2⟩
    cases a with
    | nil =>
      rw [List.nil_append]
      cases hbcase : b.head? with
      | none => rfl
      | some d =>
        rw [headNonWs, hbcase] at hbh
        simp only [Bool.not_eq_true'] at hbh
        have hd : isSpTab d = false := by
          cases hsd : isSpTab d with
          | false => rfl
          | true => rw [isPyWs_of_isSpTab hsd] at hbh; exact absurd hbh (by simp)
        simp [hd]
    | cons y a' => simpa using hadj

/-- `headNonWs` carries over to an extension on the right. -/
theorem headNonWs_append_left {a b : List Char} (ha : headNonWs a = true)
    (h : a ≠ []) : headNonWs (a ++ b) = true := by
  cases a with
  | nil => exact absurd rfl h
  | cons c a' => exact ha

/-- Normalized strings are closed under concatenation. -/
theorem normalized_append {a b : String} (ha : NormalizedStr a)
    (hb : NormalizedStr b) : NormalizedStr (a ++ b) := by
  obtain ⟨ha0, ha1, ha2, ha3, ha4⟩ := ha
  obtain ⟨hb0, hb1, hb2, hb3, hb4⟩ := hb
  have hane : a.data ≠ [] := fun hc => ha0 (String.ext hc)
  have hbne : b.data ≠ [] := fun hc => hb0 (String.ext hc)
  refine ⟨append_ne_empty_left ha0 b, ?_, ?_, ?_, ?_⟩
  · rw [String.data_append]
    exact nlOk_append_intro ha1 hb1 hb3
  · rw [String.data_append]
    exact spOk_append_intro ha2 hb2 hb3
  · rw [String.data_append]
    exact headNonWs_append_left ha3 hane
  · rw [String.data_append, List.reverse_append]
    exact headNonWs_append_left hb4 (by simpa using hbne)

/-- A list fixed by `dropWhile` has a non-whitespace head. -/
theorem headNonWs_of_dropWhile_fix {l : List Char}
    (h : l.dropWhile isPyWs = l) : headNonWs l = true := by
  cases l with
  | nil => rfl
  | cons c r =>
    rw [List.dropWhile_cons] at h
    by_cases hc : isPyWs c = true
    · rw [if_pos hc] at h
      have := congrArg List.length h
      have hle := List.Sublist.length_le (List.dropWhile_sublist (l := r) isPyWs)
      rw [List.length_cons] at this
      omega
    · rw [headNonWs]
      simp [Bool.not_eq_true _ ▸ hc]

/-- A list with a non-whitespace head is fixed by `dropWhile`. -/
theorem dropWhile_fix_of_headNonWs {l : List Char} (h : headNonWs l = true) :
    l.dropWhile isPyWs = l := by
  apply dropWhile_eq_self
  intro d hd
  cases l with
  | nil => simp at hd
  | cons c r =>
    rw [headNonWs, List.head?_cons] at h
    simp only [List.head?_cons, Option.some.injEq] at hd
    subst hd
    simpa using h

/-- A non-empty fixed point of the normalizer is a normalized string. -/
theorem normalized_of_clean {t : String} (h : cleanText t = t) (h0 : t ≠ "") :
    NormalizedStr t := by
  have hdata : clean_text t.data = t.data := congrArg String.data h
  refine ⟨h0, ?_, ?_, ?_, ?_⟩
  · rw [← hdata]
    exact nlOk_pyStrip (nlOk_spSub (nlOk_nlSub _))
  · rw [← hdata]
    exact spOk_pyStrip (spOk_spSub _)
  · apply headNonWs_of_dropWhile_fix
    rw [← hdata]
    exact pyStrip_drop_eq _
  · apply headNonWs_of_dropWhile_fix
    rw [← hdata]
    exact pyStrip_rev_drop_eq _

/-- A normalized string is a fixed point of the normalizer. -/
theorem clean_of_normalized {t : String} (h : NormalizedStr t) :
    cleanText t = t := by
  obtain ⟨-, h1, h2, h3, h4⟩ := h
  refine String.ext ?_
  show clean_text t.data = t.data
  unfold clean_text
  rw [nlSub_eq_self h1, spSub_eq_self h2]
  unfold pyStrip
  rw [dropWhile_fix_of_headNonWs h3, dropWhile_fix_of_headNonWs h4,
    List.reverse_reverse]

/-- The separator marker is itself a normalized string. -/
theorem documentSeparator_normalized : NormalizedStr documentSeparator :=
  ⟨by decide, by decide, by decide, by decide, by decide⟩

/-- A separator-join of normalized strings is normalized. -/
theorem joinSep_normalized : ∀ parts : List String, parts ≠ [] →
    (∀ t ∈ parts, NormalizedStr t) →
    NormalizedStr (joinSep documentSeparator parts) := by
  intro parts
  induction parts with
  | nil => intro h; exact absurd rfl h
  | cons x rest ih =>
    intro _ hall
    cases rest with
    | nil => exact hall x (by simp)
    | cons y rest2 =>
      show NormalizedStr
        (x ++ documentSeparator ++ joinSep documentSeparator (y :: rest2))
      exact normalized_append
        (normalized_append (hall x (by simp)) documentSeparator_normalized)
        (ih (by simp) (fun t ht => hall t (by simp [ht])))

/-- Every contributing text is non-empty. -/
theorem mem_nonEmptyTexts_ne {texts : List String} {t : String}
    (h : t ∈ nonEmptyTexts texts) : t ≠ "" := by
  have := List.of_mem_filter h
  simpa using this

/-- The separator-join of the non-empty texts is non-empty when some
text contributes. -/
theorem joinSep_nonEmptyTexts_ne {texts : List String}
    (h : nonEmptyTexts texts ≠ []) :
    joinSep documentSeparator (nonEmptyTexts texts) ≠ "" := by
  cases hf : nonEmptyTexts texts with
  | nil => exact absurd hf h
  | cons x rest =>
    have hx : x ≠ "" := mem_nonEmptyTexts_ne (hf ▸ List.mem_cons_self x rest)
    cases rest with
    | nil => exact hx
    | cons y rest2 =>
      exact append_ne_empty_left (append_ne_empty_left hx _) _

/-- C8: if every document's extracted text is empty, ingestion fails
with `NoTextExtracted`; and when at least one text is non-empty, the
corpus is exactly the non-empty texts, in upload order, joined by the
fixed separator `--- (End of Document) ---` — a join that is itself
normalization-invariant when the texts are normalizer outputs. -/
theorem claim_C8_corpus_of_nonempty_docs_or_error (texts : List String) :
    ((∀ t ∈ texts, t = "") → buildCorpus texts = .error .NoTextExtracted) ∧
    (nonEmptyTexts texts ≠ [] →
      buildCorpus texts =
        .ok (joinSep documentSeparator (nonEmptyTexts texts)) ∧
      ((∀ t ∈ texts, cleanText t = t) →
        cleanText (joinSep documentSeparator (nonEmptyTexts texts)) =
          joinSep documentSeparator (nonEmptyTexts texts))) := by
  constructor
  · intro hall
    have hng : nonEmptyTexts texts = [] := by
      rw [nonEmptyTexts, List.filter_eq_nil_iff]
      intro t ht
      simp [hall t ht]
    rw [buildCorpus, if_pos (by rw [corpusFold_empty_acc, hng]; rfl)]
  · intro hne
    have hjoin : corpusFold "" texts =
        joinSep documentSeparator (nonEmptyTexts texts) :=
      corpusFold_empty_acc texts
    refine ⟨?_, ?_⟩
    · rw [buildCorpus, if_neg (by rw [hjoin]; exact joinSep_nonEmptyTexts_ne hne),
        hjoin]
    · intro hcleanall
      apply clean_of_normalized
      apply joinSep_normalized _ hne
      intro t ht
      exact normalized_of_clean
        (hcleanall t (List.mem_of_mem_filter ht)) (mem_nonEmptyTexts_ne ht)

/-- Witness for C8: two all-empty documents fail with `NoTextExtracted`;
documents `"A"`, `""`, `"B"` yield the separator-joined corpus of the
two non-empty ones, which the normalizer fixes. -/
theorem claim_C8_corpus_of_nonempty_docs_or_error_witness :
    (∀ t ∈ (["", ""] : List String), t = "") ∧
    buildCorpus ["", ""] = .error .NoTextExtracted ∧
    nonEmptyTexts ["A", "", "B"] ≠ [] ∧
    (∀ t ∈ (["A", "", "B"] : List String), cleanText t = t) ∧
    buildCorpus ["A", "", "B"] =
      .ok (joinSep documentSeparator (nonEmptyTexts ["A", "", "B"])) ∧
    cleanText (joinSep documentSeparator (nonEmptyTexts ["A", "", "B"])) =
      joinSep documentSeparator (nonEmptyTexts ["A", "", "B"]) := by
  refine ⟨by decide, ?_, by decide, by decide, ?_, ?_⟩
  · exact (claim_C8_corpus_of_nonempty_docs_or_error ["", ""]).1 (by decide)
  · exact ((claim_C8_corpus_of_nonempty_docs_or_error ["A", "", "B"]).2
      (by decide)).1
  · exact ((claim_C8_corpus_of_nonempty_docs_or_error ["A", "", "B"]).2
      (by decide)).2 (by decide)

end PdfToAudio
